import Mathlib

/-!
# Verification of the WATCtools / array_processing spectral pipeline

Shallow embedding of the frequency-domain signal-conditioning and
beamforming code of `WATCtools.py` (`ft`, `ift`, `bpf`, `co_array`, `psf`)
and `array_processing/algorithms/fk_freq.py` (`fk_freq`), over exact
arithmetic: real samples are `ℝ`, spectra are `ℂ`, index bookkeeping is
done with `ℕ`/`ℤ`/`ℚ` exactly as the Python code computes it.

Arrays are modelled as functions out of `Fin`; a 2-D numpy array of shape
`(m, d)` column-major in time is `Fin m → Fin d → ℝ`.  numpy's silent
float division by zero (NaN/inf production) is modelled by `Option ℝ`
results: `none` stands for the NaN/inf a zero denominator produces.
-/

open Finset Complex

set_option linter.unusedVariables false

noncomputable section

/-! ## Roots of unity used by `numpy.fft`

`expUnit N t` is `exp(2πi·t/N)`, the `t`-th power of the primitive `N`-th
root of unity that `numpy.fft` is built from (`fft` uses negative powers,
`ifft` positive ones). -/

def expUnit (N : ℕ) (t : ℤ) : ℂ :=
  Complex.exp (2 * Real.pi * Complex.I * t / N)

lemma expUnit_zero (N : ℕ) : expUnit N 0 = 1 := by
  simp [expUnit]

lemma expUnit_add (N : ℕ) (s t : ℤ) :
    expUnit N (s + t) = expUnit N s * expUnit N t := by
  rw [expUnit, expUnit, expUnit, ← Complex.exp_add]
  congr 1
  push_cast
  ring

lemma expUnit_nat_mul (N : ℕ) (k : ℤ) : expUnit N ((N : ℤ) * k) = 1 := by
  rcases Nat.eq_zero_or_pos N with h0 | hpos
  · simp [expUnit, h0]
  · have hN : (N : ℂ) ≠ 0 := by exact_mod_cast hpos.ne'
    rw [expUnit]
    have harg : 2 * (Real.pi : ℂ) * Complex.I * ((N : ℤ) * k : ℤ) / N
        = (k : ℤ) * (2 * Real.pi * Complex.I) := by
      push_cast
      field_simp
      ring
    rw [harg, Complex.exp_int_mul_two_pi_mul_I]

lemma expUnit_pow (N : ℕ) (t : ℤ) (k : ℕ) :
    expUnit N t ^ k = expUnit N (t * k) := by
  induction k with
  | zero => simp [expUnit_zero]
  | succ k ih =>
      rw [pow_succ, ih, ← expUnit_add]
      congr 1
      push_cast
      ring

lemma expUnit_eq_one_iff {N : ℕ} (hN : N ≠ 0) (t : ℤ) :
    expUnit N t = 1 ↔ (N : ℤ) ∣ t := by
  have hNC : (N : ℂ) ≠ 0 := by exact_mod_cast hN
  have hπI : 2 * (Real.pi : ℂ) * Complex.I ≠ 0 := by
    simp [Real.pi_ne_zero, Complex.I_ne_zero]
  rw [expUnit, Complex.exp_eq_one_iff]
  constructor
  · rintro ⟨n, hn⟩
    have h2 : (2 * (Real.pi : ℂ) * Complex.I) * t =
        (2 * (Real.pi : ℂ) * Complex.I) * (n * N) := by
      have hn' := congrArg (fun z => z * (N : ℂ)) hn
      simp only at hn'
      rw [div_mul_cancel₀ _ hNC] at hn'
      linear_combination hn'
    have h3 : (t : ℂ) = ((N * n : ℤ) : ℂ) := by
      have := mul_left_cancel₀ hπI h2
      push_cast
      linear_combination this
    exact ⟨n, by exact_mod_cast h3⟩
  · rintro ⟨n, rfl⟩
    refine ⟨n, ?_⟩
    push_cast
    field_simp
    ring

/-- Orthogonality of the discrete characters: `∑_{k<N} expUnit N (t·k)`
is `N` when `N ∣ t` and `0` otherwise. -/
lemma sum_expUnit {N : ℕ} (hN : N ≠ 0) (t : ℤ) :
    ∑ k ∈ Finset.range N, expUnit N (t * k) =
      if (N : ℤ) ∣ t then (N : ℂ) else 0 := by
  have hterm : ∀ k : ℕ, expUnit N (t * k) = expUnit N t ^ k := by
    intro k; rw [expUnit_pow]
  simp_rw [hterm]
  by_cases hdvd : (N : ℤ) ∣ t
  · rw [if_pos hdvd]
    have h1 : expUnit N t = 1 := (expUnit_eq_one_iff hN t).mpr hdvd
    simp [h1]
  · rw [if_neg hdvd]
    have h1 : expUnit N t ≠ 1 := fun h => hdvd ((expUnit_eq_one_iff hN t).mp h)
    rw [geom_sum_eq h1]
    have hNpow : expUnit N t ^ N = 1 := by
      rw [expUnit_pow]
      have : t * ((N : ℕ) : ℤ) = (N : ℤ) * t := by ring
      rw [this, expUnit_nat_mul]
    rw [hNpow]
    simp

/-! ## `ft` and `ift` (`WATCtools.py`, lines 172–290)

`numpy.fft.fft(x, n, axis=0)` truncates or zero-pads the input to `n`
samples along axis 0, then computes the unnormalized DFT.  `pad x L`
is the truncated/zero-padded series. -/

def pad {m d : ℕ} (x : Fin m → Fin d → ℂ) (L : ℕ) : Fin L → Fin d → ℂ :=
  fun j c => if h : (j : ℕ) < m then x ⟨j, h⟩ c else 0

/-- `numpy.fft.fft(x, L, axis=0)`: unnormalized DFT of the padded input. -/
def npFFT {m d : ℕ} (x : Fin m → Fin d → ℂ) (L : ℕ) : Fin L → Fin d → ℂ :=
  fun k c => ∑ j : Fin L, pad x L j c * expUnit L (-((j : ℤ) * (k : ℤ)))

/-- `numpy.fft.ifft(X, L, axis=0)`: unnormalized inverse DFT (which numpy
divides by the transform length `L`). -/
def npIFFT {mX d : ℕ} (X : Fin mX → Fin d → ℂ) (L : ℕ) : Fin L → Fin d → ℂ :=
  fun j c => (∑ k : Fin L, pad X L k c * expUnit L ((j : ℤ) * (k : ℤ))) / L

/-- `WATCtools.ft` (lines 218–221): `fft(x, n, axis)/N[axis]` where
`N = x.shape` is taken **before** any truncation/padding, so the division
is by the original length `m`, not by `n`. Modelled for `axis = 0`. -/
def ft {m d : ℕ} (x : Fin m → Fin d → ℂ) (nOpt : Option ℕ) :
    Fin (nOpt.getD m) → Fin d → ℂ :=
  fun k c => npFFT x (nOpt.getD m) k c / m

/-- `WATCtools.ift` (lines 281–290): `ifft(X, n, axis)*N[axis]`, again with
`N` the original length of `X`.  This is the `allowComplex = True` value. -/
def ift {mX d : ℕ} (X : Fin mX → Fin d → ℂ) (nOpt : Option ℕ) :
    Fin (nOpt.getD mX) → Fin d → ℂ :=
  fun j c => npIFFT X (nOpt.getD mX) j c * mX

/-- `WATCtools.ift` with `allowComplex = False` (the default): the real
part of the inverse transform is returned. -/
def iftRe {mX d : ℕ} (X : Fin mX → Fin d → ℂ) (nOpt : Option ℕ) :
    Fin (nOpt.getD mX) → Fin d → ℝ :=
  fun j c => (ift X nOpt j c).re

/-- numpy's `axis=1` transform of a 2-D array is the `axis=0` transform of
the transpose. -/
def ftAxis1 {m d : ℕ} (x : Fin m → Fin d → ℂ) (nOpt : Option ℕ) :
    Fin m → Fin (nOpt.getD d) → ℂ :=
  fun r k => ft (fun c r' => x r' c) nOpt k r

/-- Core inversion lemma: with no truncation or padding, `ift ∘ ft` is the
identity on complex matrices (exact arithmetic). -/
lemma ift_ft_eq {m d : ℕ} (x : Fin m → Fin d → ℂ) (j : Fin m) (c : Fin d) :
    ift (ft x none) none j c = x j c := by
  have hm : m ≠ 0 := (Fin.pos_iff_nonempty.mpr ⟨j⟩).ne'
  have hmC : (m : ℂ) ≠ 0 := by exact_mod_cast hm
  show npIFFT (ft x none) m j c * m = x j c
  have hpad1 : ∀ (k : Fin m), pad (ft x none) m k c = ft x none k c := by
    intro k; simp [pad]
  have hpad2 : ∀ (j' : Fin m), pad x m j' c = x j' c := by
    intro j'; simp [pad]
  rw [npIFFT]
  simp only [hpad1]
  have hexpand : ∀ k : Fin m,
      ft x none k c * expUnit m ((j : ℤ) * (k : ℤ)) =
      (∑ j' : Fin m, x j' c *
        (expUnit m (-((j' : ℤ) * (k : ℤ))) * expUnit m ((j : ℤ) * (k : ℤ)))) / m := by
    intro k
    show npFFT x m k c / (m : ℂ) * _ = _
    rw [npFFT]
    simp only [hpad2]
    rw [div_mul_eq_mul_div, Finset.sum_mul]
    congr 1
    refine Finset.sum_congr rfl fun j' _ => by ring
  simp only [hexpand]
  rw [← Finset.sum_div, div_mul_cancel₀ _ hmC, div_eq_iff hmC, Finset.sum_comm]
  have hinner : ∀ j' : Fin m,
      ∑ k : Fin m, x j' c *
        (expUnit m (-((j' : ℤ) * (k : ℤ))) * expUnit m ((j : ℤ) * (k : ℤ))) =
      x j' c * (if (m : ℤ) ∣ ((j : ℤ) - (j' : ℤ)) then (m : ℂ) else 0) := by
    intro j'
    rw [← Finset.mul_sum]
    congr 1
    have hchar : ∀ k : Fin m,
        expUnit m (-((j' : ℤ) * (k : ℤ))) * expUnit m ((j : ℤ) * (k : ℤ)) =
        expUnit m (((j : ℤ) - (j' : ℤ)) * (k : ℤ)) := by
      intro k
      rw [← expUnit_add]
      congr 1
      ring
    simp only [hchar]
    rw [Fin.sum_univ_eq_sum_range (fun k : ℕ => expUnit m (((j : ℤ) - (j' : ℤ)) * (k : ℤ)))]
    exact sum_expUnit hm _
  simp only [hinner]
  have hdvd : ∀ j' : Fin m, ((m : ℤ) ∣ ((j : ℤ) - (j' : ℤ))) ↔ j' = j := by
    intro j'
    constructor
    · intro hq
      have hjm : (j : ℤ) < m := by exact_mod_cast j.isLt
      have hj'm : (j' : ℤ) < m := by exact_mod_cast j'.isLt
      have hj0 : (0 : ℤ) ≤ (j : ℤ) := Int.natCast_nonneg _
      have hj'0 : (0 : ℤ) ≤ (j' : ℤ) := Int.natCast_nonneg _
      have habs : |(j : ℤ) - (j' : ℤ)| < m :=
        abs_sub_lt_iff.mpr ⟨by omega, by omega⟩
      have h0 := Int.eq_zero_of_abs_lt_dvd hq habs
      have : (j' : ℤ) = (j : ℤ) := by omega
      exact Fin.ext (by exact_mod_cast this)
    · rintro rfl; simp
  rw [Finset.sum_eq_single j]
  · simp
  · intro j' _ hne
    rw [if_neg (fun h => hne ((hdvd j').mp h))]
    ring
  · intro h; exact absurd (Finset.mem_univ j) h

/-! ## `bpf` (`WATCtools.py`, lines 108–140)

The frequency-domain zero/one mask.  `np.round` rounds half to even
(banker's rounding); `npRound` reproduces it on exact rationals. -/

/-- `np.round(q, decimals=0)`: nearest integer, ties to the even one. -/
def npRound (q : ℚ) : ℤ :=
  if q - ⌊q⌋ < 1/2 then ⌊q⌋
  else if 1/2 < q - ⌊q⌋ then ⌊q⌋ + 1
  else if Even ⌊q⌋ then ⌊q⌋ else ⌊q⌋ + 1

lemma npRound_intCast (z : ℤ) : npRound (z : ℚ) = z := by
  simp [npRound]

/-- The sorted band: the code does `band.sort()`. -/
def bandLo (band : ℚ × ℚ) : ℚ := min band.1 band.2

def bandHi (band : ℚ × ℚ) : ℚ := max band.1 band.2

/-- Corner-frequency scaling: `(N-1)/2` for odd `N`, `N/2` for even `N`. -/
def bpfScale (N : ℕ) : ℚ := if N % 2 = 1 then ((N : ℚ) - 1) / 2 else (N : ℚ) / 2

def bpfB0 (N : ℕ) (band : ℚ × ℚ) : ℤ := npRound (bandLo band * bpfScale N)

def bpfB1 (N : ℕ) (band : ℚ × ℚ) : ℤ := npRound (bandHi band * bpfScale N)

/-- `Nyq = (N+1)//2` (odd) or `N//2` (even). -/
def bpfNyq (N : ℕ) : ℤ := if N % 2 = 1 then ((N : ℤ) + 1) / 2 else (N : ℤ) / 2

/-- `idx_temp = 2*Nyq - band[1]` (odd) or `2*Nyq - band[1] + 1` (even). -/
def bpfIdxTemp (N : ℕ) (band : ℚ × ℚ) : ℤ :=
  if N % 2 = 1 then 2 * bpfNyq N - bpfB1 N band
  else 2 * bpfNyq N - bpfB1 N band + 1

/-- Membership in the zero mask `idxx`: with
`idx_one = [b0, b1, idx_temp-1, N-b0]` the zeroed bins are
`range(0, b0) ∪ range(b1+1, idx_temp-1) ∪ range(N-b0+1, N)`. -/
def bpfZeroed (N : ℕ) (band : ℚ × ℚ) (k : ℕ) : Prop :=
  (k : ℤ) < bpfB0 N band ∨
    (bpfB1 N band + 1 ≤ (k : ℤ) ∧ (k : ℤ) < bpfIdxTemp N band - 1) ∨
    ((N : ℤ) - bpfB0 N band + 1 ≤ (k : ℤ) ∧ k < N)

instance (N : ℕ) (band : ℚ × ℚ) (k : ℕ) : Decidable (bpfZeroed N band k) := by
  unfold bpfZeroed; infer_instance

/-- The masked spectrum `X_bpf`: `X_bpf = ft(x)` with the bins of `idxx`
set to zero. -/
def bpfX {N d : ℕ} (x : Fin N → Fin d → ℝ) (band : ℚ × ℚ) : Fin N → Fin d → ℂ :=
  fun k c =>
    if bpfZeroed N band (k : ℕ) then 0
    else ft (fun j c' => ((x j c' : ℝ) : ℂ)) none k c

/-- `WATCtools.bpf`: returns `(x_bpf, X_bpf)`; the time series is
`ift(X_bpf, allowComplex=False)`. -/
def bpf {N d : ℕ} (x : Fin N → Fin d → ℝ) (band : ℚ × ℚ) :
    (Fin N → Fin d → ℝ) × (Fin N → Fin d → ℂ) :=
  (iftRe (bpfX x band) none, bpfX x band)

/-! ## `co_array` (`WATCtools.py`, lines 143–169) -/

/-- The sensor-pair enumeration
`[(i, j) for i in range(n-1) for j in range(i+1, n)]`. -/
def idxList (n : ℕ) : List (ℕ × ℕ) :=
  (List.range (n - 1)).flatMap fun i =>
    (List.range' (i + 1) (n - 1 - i)).map fun j => (i, j)

/-- Strict lexicographic order on index pairs. -/
def lexLt (a b : ℕ × ℕ) : Prop := a.1 < b.1 ∨ (a.1 = b.1 ∧ a.2 < b.2)

/-- `WATCtools.co_array`: the list of pairwise-difference columns
`rij[:, i_k] - rij[:, j_k]`, one per enumerated pair.  Out-of-range
indices (which cannot occur for pairs of `idxList n`) read as `0`. -/
def co_array {dd n : ℕ} (rij : Fin dd → Fin n → ℝ) : List (Fin dd → ℝ) :=
  (idxList n).map fun p r =>
    (if h : p.1 < n then rij r ⟨p.1, h⟩ else 0) -
      (if h : p.2 < n then rij r ⟨p.2, h⟩ else 0)

lemma list_range_map_sum {M : Type} [AddCommMonoid M] (m : ℕ) (f : ℕ → M) :
    ((List.range m).map f).sum = ∑ i ∈ Finset.range m, f i := by
  induction m with
  | zero => simp
  | succ m ih =>
      rw [List.range_succ, List.map_append, List.sum_append, Finset.sum_range_succ, ih,
        List.map_singleton, List.sum_cons, List.sum_nil, add_zero]

lemma list_range'_map_sum {M : Type} [AddCommMonoid M] (n : ℕ) :
    ∀ (s : ℕ) (f : ℕ → M),
      ((List.range' s n).map f).sum = ∑ i ∈ Finset.range n, f (s + i) := by
  induction n with
  | zero => intro s f; simp
  | succ n ih =>
      intro s f
      rw [List.range'_succ s n 1, List.map_cons, List.sum_cons, ih (s + 1) f,
        Finset.sum_range_succ']
      have h0 : f (s + 0) = f s := by rw [Nat.add_zero]
      rw [h0, add_comm (f s)]
      congr 1
      refine Finset.sum_congr rfl fun i _ => ?_
      congr 1
      omega

lemma sum_range_sub_mul_two (m : ℕ) :
    (∑ i ∈ Finset.range m, (m - i)) * 2 = m * (m + 1) := by
  induction m with
  | zero => simp
  | succ m ih =>
      rw [Finset.sum_range_succ]
      have hc : ∀ i ∈ Finset.range m, m + 1 - i = (m - i) + 1 := by
        intro i hi
        have := Finset.mem_range.mp hi
        omega
      rw [Finset.sum_congr rfl hc, Finset.sum_add_distrib, Finset.sum_const,
        Finset.card_range, smul_eq_mul, mul_one]
      have h1 : m + 1 - m = 1 := by omega
      rw [h1]
      nlinarith [ih]

lemma idxList_length (n : ℕ) : (idxList n).length = n * (n - 1) / 2 := by
  have h2 : (idxList n).length * 2 = n * (n - 1) := by
    rw [idxList, List.length_flatMap]
    simp only [Function.comp_def, List.length_map, List.length_range']
    rw [list_range_map_sum]
    rcases Nat.eq_zero_or_pos n with rfl | hn
    · simp
    · have h := sum_range_sub_mul_two (n - 1)
      rw [Nat.sub_add_cancel hn] at h
      rw [h]
      exact Nat.mul_comm _ _
  exact (Nat.div_eq_of_eq_mul_left (by norm_num) h2.symm).symm

lemma mem_idxList (n : ℕ) (p : ℕ × ℕ) :
    p ∈ idxList n ↔ p.1 < p.2 ∧ p.2 < n := by
  rcases p with ⟨a, b⟩
  simp only [idxList, List.mem_flatMap, List.mem_map, List.mem_range, List.mem_range'_1,
    Prod.mk.injEq]
  constructor
  · rintro ⟨i, hi, j, hj, rfl, rfl⟩
    omega
  · rintro ⟨h1, h2⟩
    exact ⟨a, by omega, b, by omega, rfl, rfl⟩

lemma list_sum_flatMap {M : Type} [AddCommMonoid M] (l : List ℕ) (f : ℕ → List M) :
    (l.flatMap f).sum = (l.map fun a => (f a).sum).sum := by
  rw [List.flatMap, List.sum_flatten, List.map_map]
  rfl

lemma idxList_sorted (n : ℕ) : (idxList n).Pairwise lexLt := by
  rw [idxList, List.pairwise_flatMap]
  constructor
  · intro a _
    rw [List.pairwise_map]
    refine (List.pairwise_lt_range' _ _).imp ?_
    intro x y hxy
    exact Or.inr ⟨rfl, hxy⟩
  · refine (List.pairwise_lt_range _).imp ?_
    intro a b hab x hx y hy
    simp only [List.mem_map] at hx hy
    obtain ⟨j, _, rfl⟩ := hx
    obtain ⟨j', _, rfl⟩ := hy
    exact Or.inl hab

/-! ## `psf` (`WATCtools.py`, lines 363–518)

The claims concern the coherence vector `P`; the code computes `P` from
the smoothed spectral-matrix stack before it is used (as `P**p`) to
reweight the spectrum, so `P` itself does not depend on `p`. -/

/-- `np.bartlett(M)[t]`: the triangular (Bartlett) window. -/
def bartlett (M t : ℕ) : ℝ :=
  if t < M then
    if 2 * t ≤ M - 1 then 2 * (t : ℝ) / ((M : ℝ) - 1)
    else 2 - 2 * (t : ℝ) / ((M : ℝ) - 1)
  else 0

/-- The default smoothing window (source `triang`):
`np.bartlett(N+2)[1:-1]`. -/
def triangWin (N t : ℕ) : ℝ := bartlett (N + 2) (t + 1)

/-- Kernel entry with zero outside `[0, W)`: `convolve2d`'s zero padding. -/
def winAt (W : ℕ) (win : ℕ → ℝ) (t : ℤ) : ℝ :=
  if 0 ≤ t ∧ t < (W : ℤ) then win t.toNat else 0

/-- One pass of `convolve2d(S, window(w).reshape(-1,1), 'full')[w//2:-w//2+1]`
on one column of the stack (length `nb`, zero-padded outside): the `i`-th
output is `∑_j win[i + w//2 - j] * s j`. -/
def smoothOnce (nb W : ℕ) (win : ℕ → ℝ) (s : ℕ → ℂ) : ℕ → ℂ :=
  fun i => ∑ j ∈ Finset.range nb,
    ((winAt W win ((i : ℤ) + ((W / 2 : ℕ) : ℤ) - (j : ℤ)) : ℝ) : ℂ) * s j

/-- Source `Ssmooth`: `n` convolution passes. -/
def Ssmooth (nb W : ℕ) (win : ℕ → ℝ) : ℕ → (ℕ → ℂ) → ℕ → ℂ
  | 0, s => s
  | n + 1, s => smoothOnce nb W win (Ssmooth nb W win n s)

/-- The composed (nonnegative) smoothing kernel: `Ssmooth` is, on bins
`< nb`, left multiplication by this matrix. -/
def Kker (nb W : ℕ) (win : ℕ → ℝ) : ℕ → ℕ → ℕ → ℝ
  | 0 => fun i l => if i = l then 1 else 0
  | n + 1 => fun i l => ∑ j ∈ Finset.range nb,
      winAt W win ((i : ℤ) + ((W / 2 : ℕ) : ℤ) - (j : ℤ)) * Kker nb W win n j l

/-- Number of retained bins, `m//2 + 1` (DC through Nyquist). -/
def psfNb (m : ℕ) : ℕ := m / 2 + 1

/-- The retained half-spectrum `X = ft(x)[:m//2+1, :]` as a total function
(junk `0` outside the valid index range; `psf` only reads `k ≤ m//2 < m`
for `m ≥ 1`, and an empty input crashes numpy anyway). -/
def psfX {m d : ℕ} (x : Fin m → Fin d → ℝ) : ℕ → ℕ → ℂ :=
  fun k c =>
    if hk : k < m then
      if hc : c < d then ft (fun j c' => ((x j c' : ℝ) : ℂ)) none ⟨k, hk⟩ ⟨c, hc⟩
      else 0
    else 0

/-- Entry sequence of the raw spectral-matrix stack for the channel pair
`(a, b)`: `S_w[a,b] = X[w,a] * conj(X[w,b])` (source line 480). -/
def psfS0 {m d : ℕ} (x : Fin m → Fin d → ℝ) (a b : ℕ) : ℕ → ℂ :=
  fun j => psfX x j a * (starRingEnd ℂ) (psfX x j b)

/-- The smoothed stack entry for pair `(a, b)` at bin `i`.  The source
stores only pairs with `a ≤ b` (`Sidx`); the same formula extends to all
pairs and is used below for the Hermitian bookkeeping. -/
def psfScomp {m d : ℕ} (x : Fin m → Fin d → ℝ) (w n : ℕ) (winF : ℕ → ℕ → ℝ)
    (a b : ℕ) : ℕ → ℂ :=
  Ssmooth (psfNb m) w (winF w) n (psfS0 x a b)

/-- `Sidx = [(i, j) for i in range(d) for j in range(i, d)]` (line 475). -/
def Sidx (d : ℕ) : List (ℕ × ℕ) :=
  (List.range d).flatMap fun a => (List.range' a (d - a)).map fun b => (a, b)

/-- `sum(S[:,didx].real.T)` at bin `i`: the sum of the real parts of the
stored entries at diagonal positions (`didx`). -/
def psfTrSd {m d : ℕ} (x : Fin m → Fin d → ℝ) (w n : ℕ) (winF : ℕ → ℕ → ℝ)
    (i : ℕ) : ℝ :=
  ((Sidx d).map fun e =>
    if e.1 = e.2 then (psfScomp x w n winF e.1 e.2 i).re else 0).sum

/-- Source `trS`: the squared trace `sum(S[:,didx].real.T)**2`. -/
def psfTrS {m d : ℕ} (x : Fin m → Fin d → ℝ) (w n : ℕ) (winF : ℕ → ℕ → ℝ)
    (i : ℕ) : ℝ :=
  psfTrSd x w n winF i ^ 2

/-- Source `trS2` (lines 497–499): `S = (S*conj(S)*2).real; S[:,didx] /= 2;
trS2 = sum(S.T)` — squared magnitudes of the stored entries, doubled off
the diagonal. -/
def psfTrS2 {m d : ℕ} (x : Fin m → Fin d → ℝ) (w n : ℕ) (winF : ℕ → ℕ → ℝ)
    (i : ℕ) : ℝ :=
  ((Sidx d).map fun e =>
    if e.1 = e.2 then Complex.normSq (psfScomp x w n winF e.1 e.2 i)
    else 2 * Complex.normSq (psfScomp x w n winF e.1 e.2 i)).sum

/-- The raw Samson estimate `P = (d*trS2 - trS)/((d-1)*trS)` (line 501). -/
def psfPraw {m d : ℕ} (x : Fin m → Fin d → ℝ) (w n : ℕ) (winF : ℕ → ℕ → ℝ)
    (i : ℕ) : ℝ :=
  ((d : ℝ) * psfTrS2 x w n winF i - psfTrS x w n winF i) /
    (((d : ℝ) - 1) * psfTrS x w n winF i)

/-- The coherence vector `P` returned by `psf(x, p, w, n, window)`
(lines 501–511): bin 0 is overwritten with `0`, and for even `m` so is
the Nyquist bin (`P[-1]`).  numpy's float division turns a zero
denominator `(d-1)*trS` into NaN/±inf, modelled as `none`.  The contrast
exponent `p` only reweights the spectrum afterwards (`X *= P**p`), so `P`
is independent of it. -/
def psfP {m d : ℕ} (x : Fin m → Fin d → ℝ) (p : ℝ) (w n : ℕ)
    (winF : ℕ → ℕ → ℝ) : Fin (psfNb m) → Option ℝ :=
  fun k =>
    if (k : ℕ) = 0 then some 0
    else if m % 2 = 0 ∧ (k : ℕ) = psfNb m - 1 then some 0
    else if ((d : ℝ) - 1) * psfTrS x w n winF (k : ℕ) = 0 then none
    else some (psfPraw x w n winF (k : ℕ))

/-! ### Structure of the smoothing operator -/

lemma Ssmooth_repr (nb W : ℕ) (win : ℕ → ℝ) (n : ℕ) (s : ℕ → ℂ) :
    ∀ i, i < nb →
      Ssmooth nb W win n s i =
        ∑ l ∈ Finset.range nb, ((Kker nb W win n i l : ℝ) : ℂ) * s l := by
  induction n with
  | zero =>
      intro i hi
      simp only [Ssmooth, Kker]
      have hterm : ∀ l : ℕ, (((if i = l then (1 : ℝ) else 0) : ℝ) : ℂ) * s l
          = if i = l then s l else 0 := by
        intro l
        by_cases h : i = l <;> simp [h]
      simp only [hterm]
      rw [Finset.sum_ite_eq]
      simp [Finset.mem_range.mpr hi]
  | succ n ih =>
      intro i hi
      simp only [Ssmooth, smoothOnce, Kker]
      rw [Finset.sum_congr rfl fun j hj => by rw [ih j (Finset.mem_range.mp hj)]]
      simp_rw [Finset.mul_sum]
      rw [Finset.sum_comm]
      refine Finset.sum_congr rfl fun l hl => ?_
      push_cast
      rw [Finset.sum_mul]
      exact Finset.sum_congr rfl fun j hj => by ring

lemma winAt_nonneg (W : ℕ) (win : ℕ → ℝ) (hwin : ∀ t, t < W → 0 ≤ win t)
    (t : ℤ) : 0 ≤ winAt W win t := by
  unfold winAt
  split
  · next h => exact hwin _ (by omega)
  · exact le_refl 0

lemma Kker_nonneg (nb W : ℕ) (win : ℕ → ℝ) (hwin : ∀ t, t < W → 0 ≤ win t) :
    ∀ n i l, 0 ≤ Kker nb W win n i l := by
  intro n
  induction n with
  | zero =>
      intro i l
      simp only [Kker]
      split <;> norm_num
  | succ n ih =>
      intro i l
      simp only [Kker]
      exact Finset.sum_nonneg fun j _ =>
        mul_nonneg (winAt_nonneg W win hwin _) (ih j l)

lemma Ssmooth_of_zero (nb W : ℕ) (win : ℕ → ℝ) (n : ℕ) (s : ℕ → ℂ)
    (hs : ∀ j, j < nb → s j = 0) :
    ∀ i, i < nb → Ssmooth nb W win n s i = 0 := by
  induction n with
  | zero => intro i hi; exact hs i hi
  | succ n ih =>
      intro i hi
      simp only [Ssmooth, smoothOnce]
      refine Finset.sum_eq_zero fun j hj => ?_
      rw [ih j (Finset.mem_range.mp hj), mul_zero]

/-! ### The stored-pair sums as double sums -/

lemma sidx_map_sum {M : Type} [AddCommMonoid M] (d : ℕ) (F : ℕ × ℕ → M) :
    ((Sidx d).map F).sum = ∑ a ∈ Finset.range d, ∑ b ∈ Finset.Ico a d, F (a, b) := by
  rw [Sidx, List.map_flatMap, list_sum_flatMap, list_range_map_sum]
  refine Finset.sum_congr rfl fun a ha => ?_
  rw [List.map_map, list_range'_map_sum, Finset.sum_Ico_eq_sum_range]
  rfl

lemma psfScomp_conj {m d : ℕ} (x : Fin m → Fin d → ℝ) (w n : ℕ)
    (winF : ℕ → ℕ → ℝ) (a b i : ℕ) (hi : i < psfNb m) :
    psfScomp x w n winF b a i = (starRingEnd ℂ) (psfScomp x w n winF a b i) := by
  rw [psfScomp, psfScomp, Ssmooth_repr _ _ _ _ _ i hi, Ssmooth_repr _ _ _ _ _ i hi,
    map_sum]
  refine Finset.sum_congr rfl fun l hl => ?_
  rw [map_mul, Complex.conj_ofReal]
  congr 1
  rw [psfS0, psfS0, map_mul, Complex.conj_conj, mul_comm]

lemma psfTrSd_eq {m d : ℕ} (x : Fin m → Fin d → ℝ) (w n : ℕ)
    (winF : ℕ → ℕ → ℝ) (i : ℕ) :
    psfTrSd x w n winF i =
      ∑ a ∈ Finset.range d, (psfScomp x w n winF a a i).re := by
  rw [psfTrSd, sidx_map_sum]
  refine Finset.sum_congr rfl fun a ha => ?_
  have hmem : a ∈ Finset.Ico a d :=
    Finset.mem_Ico.mpr ⟨le_refl a, Finset.mem_range.mp ha⟩
  rw [Finset.sum_ite_eq, if_pos hmem]

lemma psfTrS2_eq_double {m d : ℕ} (x : Fin m → Fin d → ℝ) (w n : ℕ)
    (winF : ℕ → ℕ → ℝ) (i : ℕ) (hi : i < psfNb m) :
    psfTrS2 x w n winF i =
      ∑ a ∈ Finset.range d, ∑ b ∈ Finset.range d,
        Complex.normSq (psfScomp x w n winF a b i) := by
  have hq : ∀ a b : ℕ,
      Complex.normSq (psfScomp x w n winF a b i) =
        Complex.normSq (psfScomp x w n winF b a i) := by
    intro a b
    rw [psfScomp_conj x w n winF a b i hi, Complex.normSq_conj]
  rw [psfTrS2, sidx_map_sum]
  have hsplit : ∀ a ∈ Finset.range d,
      (∑ b ∈ Finset.Ico a d,
        (if a = b then Complex.normSq (psfScomp x w n winF a b i)
         else 2 * Complex.normSq (psfScomp x w n winF a b i))) =
      Complex.normSq (psfScomp x w n winF a a i) +
        2 * ∑ b ∈ Finset.Ico (a + 1) d, Complex.normSq (psfScomp x w n winF a b i) := by
    intro a ha
    rw [Finset.sum_eq_sum_Ico_succ_bot (Finset.mem_range.mp ha), if_pos rfl]
    rw [Finset.mul_sum]
    congr 1
    refine Finset.sum_congr rfl fun b hb => ?_
    have : a ≠ b := by
      have := (Finset.mem_Ico.mp hb).1
      omega
    rw [if_neg this]
  rw [Finset.sum_congr rfl hsplit]
  have hrhs : ∀ a ∈ Finset.range d,
      (∑ b ∈ Finset.range d, Complex.normSq (psfScomp x w n winF a b i)) =
      (∑ b ∈ Finset.range a, Complex.normSq (psfScomp x w n winF a b i)) +
        (Complex.normSq (psfScomp x w n winF a a i) +
          ∑ b ∈ Finset.Ico (a + 1) d, Complex.normSq (psfScomp x w n winF a b i)) := by
    intro a ha
    have had : a ≤ d := le_of_lt (Finset.mem_range.mp ha)
    rw [Finset.range_eq_Ico, ← Finset.sum_Ico_consecutive _ (Nat.zero_le a) had,
      Finset.sum_eq_sum_Ico_succ_bot (Finset.mem_range.mp ha), ← Finset.range_eq_Ico]
  rw [Finset.sum_congr rfl hrhs]
  have hmemiff : ∀ a b : ℕ,
      a ∈ Finset.range d ∧ b ∈ Finset.range a ↔
        a ∈ Finset.Ico (b + 1) d ∧ b ∈ Finset.range d := by
    intro a b
    simp only [Finset.mem_range, Finset.mem_Ico]
    omega
  have hswap :
      (∑ a ∈ Finset.range d, ∑ b ∈ Finset.range a,
        Complex.normSq (psfScomp x w n winF a b i)) =
      ∑ a ∈ Finset.range d, ∑ b ∈ Finset.Ico (a + 1) d,
        Complex.normSq (psfScomp x w n winF a b i) := by
    rw [Finset.sum_comm' hmemiff]
    exact Finset.sum_congr rfl fun b hb => Finset.sum_congr rfl fun a ha => hq a b
  rw [Finset.sum_add_distrib, Finset.sum_add_distrib, Finset.sum_add_distrib, hswap,
    ← Finset.mul_sum]
  ring

/-- Core bounds behind the coherence estimate: at each retained bin the
smoothed stack is a nonnegative combination of rank-one Hermitian
matrices, so the trace is nonnegative, `trS2 ≤ trS` (positivity), and
`trS ≤ d * trS2` (Cauchy-Schwarz on the diagonal). -/
lemma psf_bound_core {m d : ℕ} (x : Fin m → Fin d → ℝ) (w n : ℕ)
    (winF : ℕ → ℕ → ℝ) (hwin : ∀ t, t < w → 0 ≤ winF w t)
    (i : ℕ) (hi : i < psfNb m) :
    0 ≤ psfTrSd x w n winF i ∧
    psfTrS2 x w n winF i ≤ psfTrS x w n winF i ∧
    psfTrS x w n winF i ≤ (d : ℝ) * psfTrS2 x w n winF i := by
  set nb := psfNb m with hnb
  have hK : ∀ j l, 0 ≤ Kker nb w (winF w) n j l := fun j l =>
    Kker_nonneg nb w (winF w) hwin n j l
  set D : ℕ → ℝ := fun a => ∑ l ∈ Finset.range nb,
    Kker nb w (winF w) n i l * Complex.normSq (psfX x l a) with hD
  have hdiag : ∀ a, psfScomp x w n winF a a i = ((D a : ℝ) : ℂ) := by
    intro a
    rw [psfScomp, Ssmooth_repr _ _ _ _ _ i hi, hD]
    push_cast
    refine Finset.sum_congr rfl fun l _ => ?_
    congr 1
    simp only [psfS0]
    rw [Complex.mul_conj]
  have hDnn : ∀ a, 0 ≤ D a := fun a =>
    Finset.sum_nonneg fun l _ => mul_nonneg (hK i l) (Complex.normSq_nonneg _)
  have htrSd : psfTrSd x w n winF i = ∑ a ∈ Finset.range d, D a := by
    rw [psfTrSd_eq]
    exact Finset.sum_congr rfl fun a _ => by rw [hdiag a, Complex.ofReal_re]
  have hoff : ∀ a b, Complex.normSq (psfScomp x w n winF a b i) ≤ D a * D b := by
    intro a b
    have habs : Complex.abs (psfScomp x w n winF a b i) ≤
        ∑ l ∈ Finset.range nb, Kker nb w (winF w) n i l *
          (Complex.abs (psfX x l a) * Complex.abs (psfX x l b)) := by
      rw [psfScomp, Ssmooth_repr _ _ _ _ _ i hi]
      refine (Complex.abs.sum_le _ _).trans ?_
      refine Finset.sum_le_sum fun l _ => ?_
      rw [map_mul]
      simp only [psfS0, map_mul, Complex.abs_ofReal, Complex.abs_conj]
      rw [abs_eq_self.mpr (hK i l)]
    have hCS : (∑ l ∈ Finset.range nb, Kker nb w (winF w) n i l *
          (Complex.abs (psfX x l a) * Complex.abs (psfX x l b))) ^ 2 ≤ D a * D b := by
      rw [hD]
      refine Finset.sum_sq_le_sum_mul_sum_of_sq_eq_mul _ ?_ ?_ ?_
      · intro l _
        exact mul_nonneg (hK i l) (Complex.normSq_nonneg _)
      · intro l _
        exact mul_nonneg (hK i l) (Complex.normSq_nonneg _)
      · intro l _
        rw [← Complex.sq_abs, ← Complex.sq_abs]
        ring
    calc Complex.normSq (psfScomp x w n winF a b i)
        = Complex.abs (psfScomp x w n winF a b i) ^ 2 := (Complex.sq_abs _).symm
      _ ≤ (∑ l ∈ Finset.range nb, Kker nb w (winF w) n i l *
            (Complex.abs (psfX x l a) * Complex.abs (psfX x l b))) ^ 2 :=
          pow_le_pow_left₀ (AbsoluteValue.nonneg _ _) habs 2
      _ ≤ D a * D b := hCS
  refine ⟨?_, ?_, ?_⟩
  · rw [htrSd]
    exact Finset.sum_nonneg fun a _ => hDnn a
  · rw [psfTrS2_eq_double x w n winF i hi, psfTrS, htrSd]
    calc ∑ a ∈ Finset.range d, ∑ b ∈ Finset.range d,
          Complex.normSq (psfScomp x w n winF a b i)
        ≤ ∑ a ∈ Finset.range d, ∑ b ∈ Finset.range d, D a * D b :=
          Finset.sum_le_sum fun a _ => Finset.sum_le_sum fun b _ => hoff a b
      _ = (∑ a ∈ Finset.range d, D a) ^ 2 := by
          rw [sq, Finset.sum_mul_sum]
  · rw [psfTrS, htrSd, psfTrS2_eq_double x w n winF i hi]
    have h1 : (∑ a ∈ Finset.range d, D a) ^ 2 ≤
        (((Finset.range d).card : ℕ) : ℝ) * ∑ a ∈ Finset.range d, D a ^ 2 :=
      sq_sum_le_card_mul_sum_sq
    rw [Finset.card_range] at h1
    have h2 : (∑ a ∈ Finset.range d, D a ^ 2) ≤
        ∑ a ∈ Finset.range d, ∑ b ∈ Finset.range d,
          Complex.normSq (psfScomp x w n winF a b i) := by
      refine Finset.sum_le_sum fun a ha => ?_
      have hA : D a ^ 2 = Complex.normSq (psfScomp x w n winF a a i) := by
        rw [hdiag a, Complex.normSq_ofReal]
        ring
      rw [hA]
      exact Finset.single_le_sum
        (fun b _ => Complex.normSq_nonneg (psfScomp x w n winF a b i)) ha
    calc (∑ a ∈ Finset.range d, D a) ^ 2
        ≤ (d : ℝ) * ∑ a ∈ Finset.range d, D a ^ 2 := h1
      _ ≤ (d : ℝ) * ∑ a ∈ Finset.range d, ∑ b ∈ Finset.range d,
            Complex.normSq (psfScomp x w n winF a b i) :=
          mul_le_mul_of_nonneg_left h2 (Nat.cast_nonneg d)

/-! ## `fk_freq` (`src/array_processing/algorithms/fk_freq.py`)

The cosine taper comes from obspy (an external plug-in per the spec), so
it is a parameter `taper` here; every statement below holds for an
arbitrary taper.  numpy's float division of the accumulated power maps
turns a zero denominator into NaN, modelled as `none`. -/

/-- Python `int(q)`: truncation toward zero. -/
def pyInt (q : ℚ) : ℤ := if 0 ≤ q then ⌊q⌋ else -⌊-q⌋

/-- `np.linspace(a, b, n)[i]` (for `i < n`; `n = 1` gives `[a]`). -/
def linspace (a b : ℝ) (n : ℕ) : ℕ → ℝ :=
  fun i => if n ≤ 1 then a else a + (b - a) * i / ((n : ℝ) - 1)

/-- `nfft = int(pow(2, ceil(np.log2(m))))`. -/
def fkNfft (m : ℕ) : ℕ := 2 ^ Nat.clog 2 m

/-- `deltaf = fs / nfft`. -/
def fkDeltaf (m : ℕ) (fs : ℚ) : ℚ := fs / fkNfft m

/-- `nlow = max(1, int(fmin / deltaf + 0.5))` (lines 77, 79). -/
def fkNlow (m : ℕ) (fs fmin : ℚ) : ℤ :=
  max 1 (pyInt (fmin / fkDeltaf m fs + 1 / 2))

/-- `nhigh = min(nfft // 2 - 1, int(fmax / deltaf + 0.5))` (lines 78, 80). -/
def fkNhigh (m : ℕ) (fs fmax : ℚ) : ℤ :=
  min (((fkNfft m / 2 : ℕ) : ℤ) - 1) (pyInt (fmax / fkDeltaf m fs + 1 / 2))

/-- `nf = nhigh - nlow + 1` (line 81): retained bin count, can be `≤ 0`. -/
def fkNf (m : ℕ) (fs fmin fmax : ℚ) : ℤ :=
  fkNhigh m fs fmax - fkNlow m fs fmin + 1

/-- The retained bin count as a natural number.  `nf = 0` makes every
later loop empty; `nf < 0` makes `np.empty((nsta, nf))` raise a
`ValueError`, so no map is produced in that case either. -/
def fkNfNat (m : ℕ) (fs fmin fmax : ℚ) : ℕ := (fkNf m fs fmin fmax).toNat

/-- The caller's `data` array as `fk_freq` leaves it: the loop at line 91
overwrites each column with its de-meaned values **in place**. -/
def fkDataAfter {m nsta : ℕ} (data : Fin m → Fin nsta → ℝ) :
    Fin m → Fin nsta → ℝ :=
  fun j s => data j s - (∑ i, data i s) / m

/-- The caller's `rij` array as `fk_freq` leaves it: `np.transpose`
returns a view, and lines 44–45 subtract the means of coordinate rows 0
and 1 **through that view**, so those two rows of the caller's array are
recentred; any further rows (elevation) are untouched. -/
def fkRijAfter {dd nsta : ℕ} (rij : Fin dd → Fin nsta → ℝ) :
    Fin dd → Fin nsta → ℝ :=
  fun r s =>
    if (r : ℕ) = 0 ∨ (r : ℕ) = 1 then rij r s - (∑ u, rij r u) / nsta
    else rij r s

/-- Row `i` of `rij` as a total function (the code indexes rows 0 and 1). -/
def fkRow {dd nsta : ℕ} (rij : Fin dd → Fin nsta → ℝ) (i : ℕ) :
    Fin nsta → ℝ :=
  fun s => if h : i < dd then rij ⟨i, h⟩ s else 0

/-- Recentred northing row (`rij[:, 0]` of the transposed view). -/
def fkNorthA {dd nsta : ℕ} (rij : Fin dd → Fin nsta → ℝ) : Fin nsta → ℝ :=
  fun s => fkRow rij 0 s - (∑ u, fkRow rij 0 u) / nsta

/-- Recentred easting row (`rij[:, 1]` of the transposed view). -/
def fkEastA {dd nsta : ℕ} (rij : Fin dd → Fin nsta → ℝ) : Fin nsta → ℝ :=
  fun s => fkRow rij 1 s - (∑ u, fkRow rij 1 u) / nsta

/-- Slowness grid `sits = np.linspace(1/vmax, 1/vmin, nvel)`. -/
def fkSits (vmin vmax : ℝ) (nvel : ℕ) : ℕ → ℝ := linspace (1 / vmax) (1 / vmin) nvel

/-- Azimuth grid `theta = np.linspace(0, 2*pi, ntheta)`. -/
def fkTheta (ntheta : ℕ) : ℕ → ℝ := linspace 0 (2 * Real.pi) ntheta

/-- Plane-wave delay tensor `TT = Txm + Tym` (lines 56–67):
`TT[v,t,s] = sits[v]*cos(theta[t])*east[s] + sits[v]*sin(theta[t])*north[s]`. -/
def fkTT {dd nsta : ℕ} (rij : Fin dd → Fin nsta → ℝ) (vmin vmax : ℝ)
    (nvel ntheta : ℕ) (v t : ℕ) (s : Fin nsta) : ℝ :=
  fkSits vmin vmax nvel v * Real.cos (fkTheta ntheta t) * fkEastA rij s +
    fkSits vmin vmax nvel v * Real.sin (fkTheta ntheta t) * fkNorthA rij s

/-- `np.fft.rfft(data[:,s] * taper, nfft)[k]`: the unnormalized DFT of
the de-meaned, tapered channel, zero-padded to `nfft` samples. -/
def fkFt {m nsta : ℕ} (data : Fin m → Fin nsta → ℝ) (taper : Fin m → ℝ)
    (s : Fin nsta) (k : ℕ) : ℂ :=
  ∑ j : Fin m,
    ((fkDataAfter data j s * taper j : ℝ) : ℂ) *
      expUnit (fkNfft m) (-((j : ℤ) * (k : ℤ)))

/-- `freqrange = np.linspace(fmin, fmax, nf)` (line 99; note the code uses
these values, not the true bin frequencies `(nlow+ii)*deltaf`). -/
def fkFreqrange (m : ℕ) (fs fmin fmax : ℚ) : ℕ → ℝ :=
  linspace (fmin : ℝ) (fmax : ℝ) (fkNfNat m fs fmin fmax)

/-- Steered spectral term
`Master[v,t,s] = exp(-1j*2*pi*freq*TT[v,t,s]) * ft[s, ii]` (lines 109–113),
where bin `ii` of the retained band is FFT bin `nlow + ii`. -/
def fkMaster {m nsta dd : ℕ} (data : Fin m → Fin nsta → ℝ)
    (rij : Fin dd → Fin nsta → ℝ) (taper : Fin m → ℝ)
    (fs fmin fmax : ℚ) (vmin vmax : ℝ) (nvel ntheta : ℕ)
    (v t ii : ℕ) (s : Fin nsta) : ℂ :=
  Complex.exp (-Complex.I * (2 * Real.pi) * fkFreqrange m fs fmin fmax ii *
      fkTT rij vmin vmax nvel ntheta v t s) *
    fkFt data taper s (fkNlow m fs fmin + ii).toNat

/-- Coherent beam sum `Top = sum(Master, axis=2)` (line 114). -/
def fkTop {m nsta dd : ℕ} (data : Fin m → Fin nsta → ℝ)
    (rij : Fin dd → Fin nsta → ℝ) (taper : Fin m → ℝ)
    (fs fmin fmax : ℚ) (vmin vmax : ℝ) (nvel ntheta : ℕ)
    (v t ii : ℕ) : ℂ :=
  ∑ s, fkMaster data rij taper fs fmin fmax vmin vmax nvel ntheta v t ii s

/-- Accumulated numerator `pow_mapt = Σ_ii |Top|²` (lines 115, 118). -/
def fkPowNum {m nsta dd : ℕ} (data : Fin m → Fin nsta → ℝ)
    (rij : Fin dd → Fin nsta → ℝ) (taper : Fin m → ℝ)
    (fs fmin fmax : ℚ) (vmin vmax : ℝ) (nvel ntheta : ℕ) (v t : ℕ) : ℝ :=
  ∑ ii ∈ Finset.range (fkNfNat m fs fmin fmax),
    Complex.normSq (fkTop data rij taper fs fmin fmax vmin vmax nvel ntheta v t ii)

/-- Accumulated denominator `pow_mapb = Σ_ii Σ_s |Master|²` (116–119). -/
def fkPowDen {m nsta dd : ℕ} (data : Fin m → Fin nsta → ℝ)
    (rij : Fin dd → Fin nsta → ℝ) (taper : Fin m → ℝ)
    (fs fmin fmax : ℚ) (vmin vmax : ℝ) (nvel ntheta : ℕ) (v t : ℕ) : ℝ :=
  ∑ ii ∈ Finset.range (fkNfNat m fs fmin fmax),
    ∑ s, Complex.normSq
      (fkMaster data rij taper fs fmin fmax vmin vmax nvel ntheta v t ii s)

/-- `pow_map = pow_mapt / pow_mapb` (line 120), with numpy's silent
`0/0 → NaN` modelled as `none`. -/
def fk_freq {m nsta dd : ℕ} (data : Fin m → Fin nsta → ℝ)
    (rij : Fin dd → Fin nsta → ℝ) (taper : Fin m → ℝ)
    (fs fmin fmax : ℚ) (vmin vmax : ℝ) (nvel ntheta : ℕ) (v t : ℕ) :
    Option ℝ :=
  if fkPowDen data rij taper fs fmin fmax vmin vmax nvel ntheta v t = 0 then none
  else some
    (fkPowNum data rij taper fs fmin fmax vmin vmax nvel ntheta v t /
      fkPowDen data rij taper fs fmin fmax vmin vmax nvel ntheta v t)

/-! ## Claim C2 -/

/-- C2: for every real matrix `x`, applying the inverse transform to the
forward transform with no truncation or padding returns `x` exactly (so in
particular within any floating-point tolerance): `ift(ft(x)) == x`. -/
theorem ift_ft_roundtrip {m d : ℕ} (x : Fin m → Fin d → ℝ) :
    iftRe (ft (fun j c => ((x j c : ℝ) : ℂ)) none) none = x := by
  funext j c
  show (ift (ft (fun j c => ((x j c : ℝ) : ℂ)) none) none j c).re = x j c
  rw [ift_ft_eq]
  exact Complex.ofReal_re _

/-! ## Claim C8 -/

/-- Modelled from the spec's words, for comparison with the source's `ft`
(claim C8): a forward transform that "divides every component by the
(possibly padded) sample count along that axis". -/
def ftSpec {m d : ℕ} (x : Fin m → Fin d → ℂ) (nOpt : Option ℕ) :
    Fin (nOpt.getD m) → Fin d → ℂ :=
  fun k c => npFFT x (nOpt.getD m) k c / (nOpt.getD m : ℂ)

/-- C8 counterexample: padding the length-1 series `[1]` to 2 samples, the
source's `ft` divides by the original length 1 (DC component 1), while the
claimed normalization divides by the padded count 2 (DC component 1/2);
the DC component also fails to equal the padded series' mean 1/2. -/
theorem ft_padded_normalization_cex :
    ft (fun (_ : Fin 1) (_ : Fin 1) => (1 : ℂ)) (some 2) ⟨0, by norm_num⟩ ⟨0, by norm_num⟩
        = 1 ∧
    ftSpec (fun (_ : Fin 1) (_ : Fin 1) => (1 : ℂ)) (some 2) ⟨0, by norm_num⟩ ⟨0, by norm_num⟩
        = 1 / 2 ∧
    ft (fun (_ : Fin 1) (_ : Fin 1) => (1 : ℂ)) (some 2) ⟨0, by norm_num⟩ ⟨0, by norm_num⟩
        ≠ ftSpec (fun (_ : Fin 1) (_ : Fin 1) => (1 : ℂ)) (some 2) ⟨0, by norm_num⟩
            ⟨0, by norm_num⟩ := by
  have h1 : ft (fun (_ : Fin 1) (_ : Fin 1) => (1 : ℂ)) (some 2) ⟨0, by norm_num⟩
      ⟨0, by norm_num⟩ = 1 := by
    show npFFT (fun _ _ => (1 : ℂ)) 2 ⟨0, by norm_num⟩ ⟨0, by norm_num⟩ / (1 : ℕ) = 1
    rw [npFFT, Fin.sum_univ_two]
    simp [pad, expUnit]
  have h2 : ftSpec (fun (_ : Fin 1) (_ : Fin 1) => (1 : ℂ)) (some 2) ⟨0, by norm_num⟩
      ⟨0, by norm_num⟩ = 1 / 2 := by
    show npFFT (fun _ _ => (1 : ℂ)) 2 ⟨0, by norm_num⟩ ⟨0, by norm_num⟩ / ((2 : ℕ) : ℂ)
        = 1 / 2
    rw [npFFT, Fin.sum_univ_two]
    simp [pad, expUnit]
  refine ⟨h1, h2, ?_⟩
  rw [h1, h2]
  norm_num

/-- C8 (amended): `ft(x, n, axis)` computes the DFT of `x`
truncated/zero-padded to `n` samples along the axis but divides every
component by the **original** sample count `m` along that axis (numpy's
`x.shape[axis]`, read before padding), so the DC component equals
`(sum of the truncated/padded series) / m`; with no length given this is
the time-domain mean of `x`.  (Axis 0 shown; numpy's `axis=1` transform
is the same operation on the transpose, `ftAxis1`.) -/
theorem ft_divides_by_original_count {m d : ℕ} (x : Fin m → Fin d → ℂ)
    (L : ℕ) (c : Fin d) (hm : 0 < m) (hL : 0 < L) :
    ft x (some L) ⟨0, hL⟩ c = (∑ j : Fin L, pad x L j c) / m ∧
    ft x none ⟨0, hm⟩ c = (∑ j, x j c) / m := by
  have hdc : ∀ (L' : ℕ) (hL' : 0 < L'),
      npFFT x L' ⟨0, hL'⟩ c = ∑ j : Fin L', pad x L' j c := by
    intro L' hL'
    rw [npFFT]
    refine Finset.sum_congr rfl fun j _ => ?_
    have : -((j : ℤ) * ((0 : ℕ) : ℤ)) = 0 := by push_cast; ring
    show pad x L' j c * expUnit L' (-((j : ℤ) * (((⟨0, hL'⟩ : Fin L') : ℕ) : ℤ))) = _
    simp only [Fin.val_mk, Nat.cast_zero, mul_zero, neg_zero, expUnit_zero, mul_one]
  constructor
  · show npFFT x L ⟨0, hL⟩ c / (m : ℂ) = _
    rw [hdc L hL]
  · show npFFT x m ⟨0, hm⟩ c / (m : ℂ) = _
    rw [hdc m hm]
    congr 1
    exact Finset.sum_congr rfl fun j _ => by simp [pad]

/-- Witness for C8's amended theorem at `m = 1`, `L = 2`, `x = [1]`. -/
theorem ft_divides_by_original_count_witness :
    ft (fun (_ : Fin 1) (_ : Fin 1) => (1 : ℂ)) (some 2) ⟨0, by norm_num⟩ ⟨0, by norm_num⟩
        = (∑ j : Fin 2, pad (fun (_ : Fin 1) (_ : Fin 1) => (1 : ℂ)) 2 j ⟨0, by norm_num⟩)
            / (1 : ℕ) ∧
    ft (fun (_ : Fin 1) (_ : Fin 1) => (1 : ℂ)) none ⟨0, by norm_num⟩ ⟨0, by norm_num⟩
        = (∑ j, (fun (_ : Fin 1) (_ : Fin 1) => (1 : ℂ)) j ⟨0, by norm_num⟩) / (1 : ℕ) :=
  ft_divides_by_original_count (fun _ _ => 1) 2 ⟨0, by norm_num⟩ (by norm_num) (by norm_num)

/-! ## Claim C9 -/

/-- C9 counterexample: with a single sensor (`n = 1 < 2`) `co_array` does
**not** fail: it evaluates normally and returns the empty list of
separation columns.  No `InsufficientSensors` error exists anywhere in
the code. -/
theorem co_array_single_sensor_returns_empty :
    co_array (fun (_ : Fin 2) (_ : Fin 1) => (0 : ℝ)) = [] := by
  rfl

/-- C9 (amended): for fewer than 2 sensors `co_array` has no error path;
it returns a `d × 0` matrix — the `n(n-1)/2 = 0` enumerated pairs. -/
theorem co_array_no_error_small_n {dd n : ℕ} (rij : Fin dd → Fin n → ℝ)
    (hn : n < 2) :
    co_array rij = [] ∧ (co_array rij).length = n * (n - 1) / 2 := by
  have hidx : idxList n = [] := by
    interval_cases n <;> rfl
  exact ⟨by rw [co_array, hidx]; rfl,
    by rw [co_array, List.length_map, idxList_length]⟩

/-- Witness for C9's amended theorem at `n = 1`. -/
theorem co_array_no_error_small_n_witness :
    co_array (fun (_ : Fin 3) (_ : Fin 1) => (7 : ℝ)) = [] ∧
    (co_array (fun (_ : Fin 3) (_ : Fin 1) => (7 : ℝ))).length = 1 * (1 - 1) / 2 :=
  co_array_no_error_small_n (fun _ _ => 7) (by norm_num)

/-! ## Claim C5 -/

/-- C5 counterexample: `fk_freq` de-means the caller's `data` **in place**
(line 91 assigns into `data[:, jj]`), so the caller's array does not hold
its original values after the call: for `data = [[1],[0]]` the stored
series afterwards is `[[1/2],[-1/2]] ≠ [[1],[0]]`. -/
theorem fk_freq_mutates_data :
    fkDataAfter (fun (j : Fin 2) (_ : Fin 1) => if j = 0 then (1 : ℝ) else 0) ≠
      fun (j : Fin 2) (_ : Fin 1) => if j = 0 then (1 : ℝ) else 0 := by
  intro h
  have h0 := congrFun (congrFun h ⟨0, by norm_num⟩) ⟨0, by norm_num⟩
  rw [fkDataAfter, Fin.sum_univ_two] at h0
  norm_num at h0

/-- C5 (amended): after `fk_freq` returns, the caller's `data` holds the
column-de-meaned series (not the original values), and the caller's `rij`
has coordinate rows 0 and 1 recentred to their means (mutated through the
`np.transpose` view); coordinate rows beyond the first two are unchanged. -/
theorem fk_freq_frame_effect {m nsta dd : ℕ} (data : Fin m → Fin nsta → ℝ)
    (rij : Fin dd → Fin nsta → ℝ) (h0 : 0 < dd) (h1 : 1 < dd) :
    (∀ j s, fkDataAfter data j s = data j s - (∑ i, data i s) / m) ∧
    (∀ s, fkRijAfter rij ⟨0, h0⟩ s = rij ⟨0, h0⟩ s - (∑ u, rij ⟨0, h0⟩ u) / nsta) ∧
    (∀ s, fkRijAfter rij ⟨1, h1⟩ s = rij ⟨1, h1⟩ s - (∑ u, rij ⟨1, h1⟩ u) / nsta) ∧
    (∀ (r : Fin dd) (s : Fin nsta), 2 ≤ (r : ℕ) → fkRijAfter rij r s = rij r s) := by
  refine ⟨fun j s => rfl, fun s => ?_, fun s => ?_, fun r s hr => ?_⟩
  · rw [fkRijAfter]
    norm_num
  · rw [fkRijAfter]
    norm_num
  · rw [fkRijAfter, if_neg]
    omega

/-- Witness for C5's amended theorem on concrete 1×1 data with a 2×1
geometry. -/
theorem fk_freq_frame_effect_witness :
    (∀ (j : Fin 1) (s : Fin 1),
      fkDataAfter (fun (_ : Fin 1) (_ : Fin 1) => (3 : ℝ)) j s =
        (fun (_ : Fin 1) (_ : Fin 1) => (3 : ℝ)) j s -
          (∑ i, (fun (_ : Fin 1) (_ : Fin 1) => (3 : ℝ)) i s) / ((1 : ℕ) : ℝ)) ∧
    (∀ s : Fin 1,
      fkRijAfter (fun (_ : Fin 2) (_ : Fin 1) => (5 : ℝ)) ⟨0, by norm_num⟩ s =
        (fun (_ : Fin 2) (_ : Fin 1) => (5 : ℝ)) ⟨0, by norm_num⟩ s -
          (∑ u, (fun (_ : Fin 2) (_ : Fin 1) => (5 : ℝ)) ⟨0, by norm_num⟩ u) / ((1 : ℕ) : ℝ)) ∧
    (∀ s : Fin 1,
      fkRijAfter (fun (_ : Fin 2) (_ : Fin 1) => (5 : ℝ)) ⟨1, by norm_num⟩ s =
        (fun (_ : Fin 2) (_ : Fin 1) => (5 : ℝ)) ⟨1, by norm_num⟩ s -
          (∑ u, (fun (_ : Fin 2) (_ : Fin 1) => (5 : ℝ)) ⟨1, by norm_num⟩ u) / ((1 : ℕ) : ℝ)) ∧
    (∀ (r : Fin 2) (s : Fin 1), 2 ≤ (r : ℕ) →
      fkRijAfter (fun (_ : Fin 2) (_ : Fin 1) => (5 : ℝ)) r s =
        (fun (_ : Fin 2) (_ : Fin 1) => (5 : ℝ)) r s) :=
  fk_freq_frame_effect (fun (_ : Fin 1) (_ : Fin 1) => (3 : ℝ))
    (fun (_ : Fin 2) (_ : Fin 1) => (5 : ℝ)) (by norm_num) (by norm_num)

/-! ## Claim C7 -/

lemma psfX_zero {m d : ℕ} (j c : ℕ) :
    psfX (fun (_ : Fin m) (_ : Fin d) => (0 : ℝ)) j c = 0 := by
  rw [psfX]
  split
  · split
    · show npFFT _ m _ _ / (m : ℂ) = 0
      rw [npFFT]
      rw [Finset.sum_eq_zero fun j' _ => ?_, zero_div]
      simp [pad]
    · rfl
  · rfl

lemma psfScomp_zero {m d : ℕ} (w n : ℕ) (winF : ℕ → ℕ → ℝ) (a b i : ℕ)
    (hi : i < psfNb m) :
    psfScomp (fun (_ : Fin m) (_ : Fin d) => (0 : ℝ)) w n winF a b i = 0 := by
  rw [psfScomp]
  refine Ssmooth_of_zero _ _ _ _ _ (fun j hj => ?_) i hi
  rw [psfS0, psfX_zero, zero_mul]

lemma psfTrS_zero {m d : ℕ} (w n : ℕ) (winF : ℕ → ℕ → ℝ) (i : ℕ)
    (hi : i < psfNb m) :
    psfTrS (fun (_ : Fin m) (_ : Fin d) => (0 : ℝ)) w n winF i = 0 := by
  rw [psfTrS, psfTrSd_eq]
  rw [Finset.sum_eq_zero fun a _ => ?_]
  · norm_num
  · rw [psfScomp_zero w n winF a a i hi, Complex.zero_re]

/-- C7: on the all-zero 4×2 input the smoothed spectral matrix has zero
trace at interior bin 1, and `psf` does **not** raise any
`NumericDegeneracy` error: numpy evaluates `P = 0/0` to NaN with only a
RuntimeWarning, so the coherence value at that bin is NaN (modelled
`none`), silently propagated. -/
theorem psfP_zero_trace_is_nan :
    psfP (fun (_ : Fin 4) (_ : Fin 2) => (0 : ℝ)) 2 3 3 triangWin
      ⟨1, by norm_num [psfNb]⟩ = none := by
  rw [psfP]
  have htr : psfTrS (fun (_ : Fin 4) (_ : Fin 2) => (0 : ℝ)) 3 3 triangWin 1 = 0 :=
    psfTrS_zero 3 3 triangWin 1 (by norm_num [psfNb])
  rw [if_neg (by norm_num), if_neg (by norm_num [psfNb]), if_pos (by rw [htr]; ring)]

/-! ## Claim C1 -/

/-- C1 counterexample: on the all-zero 6×2 input, with the default
parameters (`p=2, w=3, n=3`, triangular window), the coherence at
interior bin 1 is numpy's NaN (`none`), not a value in `[0,1]`: the
claimed bound does not hold for every real input matrix. -/
theorem psfP_not_always_in_unit_interval :
    ¬ ∃ v, psfP (fun (_ : Fin 6) (_ : Fin 2) => (0 : ℝ)) 2 3 3 triangWin
        ⟨1, by norm_num [psfNb]⟩ = some v ∧ 0 ≤ v ∧ v ≤ 1 := by
  rintro ⟨v, hv, -⟩
  rw [psfP] at hv
  have htr : psfTrS (fun (_ : Fin 6) (_ : Fin 2) => (0 : ℝ)) 3 3 triangWin 1 = 0 :=
    psfTrS_zero 3 3 triangWin 1 (by norm_num [psfNb])
  rw [if_neg (by norm_num), if_neg (by norm_num [psfNb]),
    if_pos (by rw [htr]; ring)] at hv
  exact Option.noConfusion hv

/-- C1 (amended): for every real `(m, d)` input with `d ≥ 2` channels,
every contrast exponent `p`, every smoothing width `w` and pass count `n`,
and every window whose coefficients are nonnegative (the default
triangular window is), at every bin `k` at which the squared trace of the
smoothed spectral matrix is nonzero (so numpy's division is defined), the
coherence `P[k]` is a real number in `[0, 1]`; moreover `P[0] = 0` always
and, when `m` is even, the Nyquist bin `P[-1] = 0` as well. -/
theorem psfP_bounds {m d : ℕ} (x : Fin m → Fin d → ℝ) (p : ℝ) (w n : ℕ)
    (winF : ℕ → ℕ → ℝ) (hd : 2 ≤ d) (hwin : ∀ t, t < w → 0 ≤ winF w t)
    (k : Fin (psfNb m)) (htr : psfTrS x w n winF (k : ℕ) ≠ 0) :
    (∃ v, psfP x p w n winF k = some v ∧ 0 ≤ v ∧ v ≤ 1) ∧
    psfP x p w n winF ⟨0, Nat.succ_pos _⟩ = some 0 ∧
    (m % 2 = 0 →
      psfP x p w n winF ⟨psfNb m - 1, Nat.sub_lt (Nat.succ_pos _) Nat.one_pos⟩
        = some 0) := by
  refine ⟨?_, ?_, ?_⟩
  · by_cases hk0 : (k : ℕ) = 0
    · exact ⟨0, by rw [psfP, if_pos hk0], le_refl 0, zero_le_one⟩
    by_cases hknyq : m % 2 = 0 ∧ (k : ℕ) = psfNb m - 1
    · exact ⟨0, by rw [psfP, if_neg hk0, if_pos hknyq], le_refl 0, zero_le_one⟩
    obtain ⟨htd, hts, htd2⟩ := psf_bound_core x w n winF hwin (k : ℕ) k.isLt
    have htrpos : 0 < psfTrS x w n winF (k : ℕ) :=
      lt_of_le_of_ne (by rw [psfTrS]; exact sq_nonneg _) (Ne.symm htr)
    have hd1 : (0 : ℝ) < (d : ℝ) - 1 := by
      have h2 : (2 : ℝ) ≤ (d : ℝ) := by exact_mod_cast hd
      linarith
    have hden : 0 < ((d : ℝ) - 1) * psfTrS x w n winF (k : ℕ) := mul_pos hd1 htrpos
    refine ⟨psfPraw x w n winF (k : ℕ), ?_, ?_, ?_⟩
    · rw [psfP, if_neg hk0, if_neg hknyq, if_neg (ne_of_gt hden)]
    · rw [psfPraw]
      exact div_nonneg (sub_nonneg.mpr htd2) hden.le
    · rw [psfPraw, div_le_one hden]
      have hmul : (d : ℝ) * psfTrS2 x w n winF (k : ℕ) ≤
          (d : ℝ) * psfTrS x w n winF (k : ℕ) :=
        mul_le_mul_of_nonneg_left hts (Nat.cast_nonneg d)
      linarith
  · rw [psfP, if_pos]
    rfl
  · intro hme
    by_cases h0 : psfNb m - 1 = 0
    · rw [psfP, if_pos h0]
    · rw [psfP, if_neg h0, if_pos ⟨hme, rfl⟩]

/-- Concrete input for C1's witness: a unit impulse on both channels. -/
def psfWitX : Fin 4 → Fin 2 → ℝ := fun j _ => if j = 0 then 1 else 0

lemma psfWitX_eval (j c : ℕ) (hj : j < 4) (hc : c < 2) :
    psfX psfWitX j c = (((1 : ℝ) / 4 : ℝ) : ℂ) := by
  rw [psfX, dif_pos hj, dif_pos hc]
  show npFFT _ 4 ⟨j, hj⟩ ⟨c, hc⟩ / ((4 : ℕ) : ℂ) = _
  rw [npFFT, Fin.sum_univ_four]
  simp only [pad, psfWitX]
  norm_num [expUnit_zero, Fin.ext_iff, show ((3 : Fin 4) : ℕ) = 3 from rfl,
    show ((2 : Fin 4) : ℕ) = 2 from rfl]

lemma psfWitS0 (a b j : ℕ) (ha : a < 2) (hb : b < 2) (hj : j < 4) :
    psfS0 psfWitX a b j = (((1 : ℝ) / 16 : ℝ) : ℂ) := by
  rw [psfS0, psfWitX_eval j a hj ha, psfWitX_eval j b hj hb, Complex.conj_ofReal,
    ← Complex.ofReal_mul]
  norm_num

lemma psfWitScomp (a b : ℕ) (ha : a < 2) (hb : b < 2) :
    psfScomp psfWitX 3 1 triangWin a b 1 = (((1 : ℝ) / 8 : ℝ) : ℂ) := by
  rw [psfScomp]
  have hnb : psfNb 4 = 3 := rfl
  rw [hnb]
  simp only [Ssmooth, smoothOnce]
  rw [Finset.sum_range_succ, Finset.sum_range_succ, Finset.sum_range_one]
  rw [psfWitS0 a b 0 ha hb (by norm_num), psfWitS0 a b 1 ha hb (by norm_num),
    psfWitS0 a b 2 ha hb (by norm_num)]
  have hpull : ∀ r : ℝ, ((r : ℝ) : ℂ) * (((1 : ℝ) / 16 : ℝ) : ℂ)
      = ((r * (1 / 16) : ℝ) : ℂ) := fun r => by
    rw [← Complex.ofReal_mul]
  rw [hpull, hpull, hpull, ← Complex.ofReal_add, ← Complex.ofReal_add,
    Complex.ofReal_inj]
  norm_num [winAt, triangWin, bartlett, show Int.toNat 2 = 2 from rfl]

lemma psfWitTrS : psfTrS psfWitX 3 1 triangWin 1 = 1 / 16 := by
  rw [psfTrS, psfTrSd_eq]
  rw [Finset.sum_range_succ, Finset.sum_range_one]
  rw [psfWitScomp 0 0 (by norm_num) (by norm_num),
    psfWitScomp 1 1 (by norm_num) (by norm_num), Complex.ofReal_re]
  norm_num

/-- Witness for C1's amended theorem: impulse input, `d = 2`, `w = 3`,
one smoothing pass, default triangular window, bin 1. -/
theorem psfP_bounds_witness :
    ∃ v, psfP psfWitX 2 3 1 triangWin ⟨1, by norm_num [psfNb]⟩ = some v ∧
      0 ≤ v ∧ v ≤ 1 :=
  (psfP_bounds psfWitX 2 3 1 triangWin (by norm_num)
    (fun t ht => by interval_cases t <;> norm_num [triangWin, bartlett])
    ⟨1, by norm_num [psfNb]⟩
    (by show psfTrS psfWitX 3 1 triangWin 1 ≠ 0
        rw [psfWitTrS]
        norm_num)).1

/-! ## Claim C4 -/

/-- The corner-index scale as a natural number: `(N-1)/2` (odd `N`) or
`N/2` (even `N`). -/
def bpfScaleNat (N : ℕ) : ℕ := if N % 2 = 1 then (N - 1) / 2 else N / 2

lemma npRound_natCast (k : ℕ) : npRound (k : ℚ) = k := by
  have h := npRound_intCast (k : ℤ)
  rw [Int.cast_natCast] at h
  exact h

lemma bpfScale_eq (N : ℕ) : bpfScale N = (bpfScaleNat N : ℚ) := by
  rw [bpfScale, bpfScaleNat]
  split
  · next h =>
      have h1 : 1 ≤ N := by omega
      have hnat : (N - 1) / 2 * 2 = N - 1 := by omega
      have h2 : (((N - 1) / 2 : ℕ) : ℚ) * 2 = (N : ℚ) - 1 := by
        calc (((N - 1) / 2 : ℕ) : ℚ) * 2 = (((N - 1) / 2 * 2 : ℕ) : ℚ) := by push_cast; ring
          _ = ((N - 1 : ℕ) : ℚ) := by rw [hnat]
          _ = (N : ℚ) - 1 := by rw [Nat.cast_sub h1]; norm_num
      field_simp
      linarith [h2]
  · next h =>
      have hnat : N / 2 * 2 = N := by omega
      have h2 : ((N / 2 : ℕ) : ℚ) * 2 = (N : ℚ) := by
        calc ((N / 2 : ℕ) : ℚ) * 2 = ((N / 2 * 2 : ℕ) : ℚ) := by push_cast; ring
          _ = (N : ℚ) := by rw [hnat]
      field_simp
      linarith [h2]

lemma bpfB0_full (N : ℕ) : bpfB0 N ((0 : ℚ), (1 : ℚ)) = 0 := by
  have h : bandLo ((0 : ℚ), (1 : ℚ)) * bpfScale N = (((0 : ℕ) : ℕ) : ℚ) := by
    rw [bandLo]
    norm_num
  rw [bpfB0, h, npRound_natCast]
  rfl

lemma bpfB1_full (N : ℕ) : bpfB1 N ((0 : ℚ), (1 : ℚ)) = bpfScaleNat N := by
  have h : bandHi ((0 : ℚ), (1 : ℚ)) * bpfScale N = ((bpfScaleNat N : ℕ) : ℚ) := by
    rw [bandHi, bpfScale_eq]
    norm_num
  rw [bpfB1, h, npRound_natCast]

lemma bpfB0_nyq (N : ℕ) : bpfB0 N ((1 : ℚ), (1 : ℚ)) = bpfScaleNat N := by
  have h : bandLo ((1 : ℚ), (1 : ℚ)) * bpfScale N = ((bpfScaleNat N : ℕ) : ℚ) := by
    rw [bandLo, bpfScale_eq]
    norm_num
  rw [bpfB0, h, npRound_natCast]

lemma bpfB1_nyq (N : ℕ) : bpfB1 N ((1 : ℚ), (1 : ℚ)) = bpfScaleNat N := by
  have h : bandHi ((1 : ℚ), (1 : ℚ)) * bpfScale N = ((bpfScaleNat N : ℕ) : ℚ) := by
    rw [bandHi, bpfScale_eq]
    norm_num
  rw [bpfB1, h, npRound_natCast]

/-- With the full band `[0, 1]` the zero mask `idxx` is empty. -/
lemma bpfZeroed_full_empty (N k : ℕ) (hk : k < N) :
    ¬ bpfZeroed N ((0 : ℚ), (1 : ℚ)) k := by
  rw [bpfZeroed, bpfIdxTemp, bpfNyq, bpfB0_full, bpfB1_full, bpfScaleNat]
  rcases Nat.mod_two_eq_zero_or_one N with h | h
  · rw [if_neg (by omega), if_neg (by omega), if_neg (by omega)]
    omega
  · rw [if_pos h, if_pos h, if_pos h]
    omega

/-- With the degenerate band `[1, 1]` every bin other than `N/2` and
`(N+1)/2` is zeroed. -/
lemma bpfZeroed_nyq_band (N k : ℕ) (hk : k < N) (h1 : k ≠ N / 2)
    (h2 : k ≠ (N + 1) / 2) : bpfZeroed N ((1 : ℚ), (1 : ℚ)) k := by
  rw [bpfZeroed, bpfIdxTemp, bpfNyq, bpfB0_nyq, bpfB1_nyq, bpfScaleNat]
  rcases Nat.mod_two_eq_zero_or_one N with h | h
  · rw [if_neg (by omega), if_neg (by omega), if_neg (by omega)]
    omega
  · rw [if_pos h, if_pos h, if_pos h]
    omega

/-- C4 counterexample: for the length-2 impulse `[1, 0]`, `bpf` with the
degenerate band `[1, 1]` leaves the **Nyquist** bin (bin 1), not the DC
bin: the returned spectrum is `1/2 ≠ 0` at the non-DC bin 1, refuting
"zero at every bin except the DC bin". -/
theorem bpf_nyq_band_keeps_nyquist_not_dc :
    (bpf (fun (j : Fin 2) (_ : Fin 1) => if j = 0 then (1 : ℝ) else 0)
        ((1 : ℚ), (1 : ℚ))).2 ⟨1, by norm_num⟩ ⟨0, by norm_num⟩ = 1 / 2 ∧
    ((1 : ℂ) / 2) ≠ 0 := by
  constructor
  · show bpfX _ ((1 : ℚ), (1 : ℚ)) ⟨1, by norm_num⟩ ⟨0, by norm_num⟩ = 1 / 2
    rw [bpfX, if_neg]
    · show npFFT _ 2 ⟨1, by norm_num⟩ ⟨0, by norm_num⟩ / ((2 : ℕ) : ℂ) = 1 / 2
      rw [npFFT, Fin.sum_univ_two]
      simp only [pad]
      norm_num [expUnit_zero, Fin.ext_iff]
    · rw [bpfZeroed, bpfIdxTemp, bpfNyq, bpfB0_nyq, bpfB1_nyq, bpfScaleNat]
      norm_num
  · norm_num

/-- C4 (amended): `bpf(x, [0,1])` (full band) returns `x` exactly, and
`bpf(x, [1,1])` (degenerate band at Nyquist) returns a series whose
spectrum is zero at every bin **except the Nyquist bin(s)** `⌊N/2⌋` and
`⌈N/2⌉ = (N+1)/2` (for even `N` these coincide in the single Nyquist bin;
the DC bin is among the zeroed ones for `N ≥ 2`). -/
theorem bpf_full_band_identity_and_nyq_band {N d : ℕ} (x : Fin N → Fin d → ℝ)
    (k : Fin N) (hk1 : (k : ℕ) ≠ N / 2) (hk2 : (k : ℕ) ≠ (N + 1) / 2) :
    (bpf x ((0 : ℚ), (1 : ℚ))).1 = x ∧
    ∀ c, (bpf x ((1 : ℚ), (1 : ℚ))).2 k c = 0 := by
  constructor
  · show iftRe (bpfX x ((0 : ℚ), (1 : ℚ))) none = x
    have hmask : bpfX x ((0 : ℚ), (1 : ℚ)) =
        ft (fun j c' => ((x j c' : ℝ) : ℂ)) none := by
      funext k' c'
      rw [bpfX, if_neg (bpfZeroed_full_empty N (k' : ℕ) k'.isLt)]
    rw [hmask]
    funext j c
    show (ift (ft (fun j c' => ((x j c' : ℝ) : ℂ)) none) none j c).re = x j c
    rw [ift_ft_eq]
    exact Complex.ofReal_re _
  · intro c
    show bpfX x ((1 : ℚ), (1 : ℚ)) k c = 0
    rw [bpfX, if_pos (bpfZeroed_nyq_band N (k : ℕ) k.isLt hk1 hk2)]

/-- Witness for C4's amended theorem: `N = 2`, constant input, bin 0. -/
theorem bpf_full_band_identity_and_nyq_band_witness :
    ((bpf (fun (_ : Fin 2) (_ : Fin 1) => (1 : ℝ)) ((0 : ℚ), (1 : ℚ))).1 =
      fun (_ : Fin 2) (_ : Fin 1) => (1 : ℝ)) ∧
    ∀ c, (bpf (fun (_ : Fin 2) (_ : Fin 1) => (1 : ℝ)) ((1 : ℚ), (1 : ℚ))).2
      ⟨0, by norm_num⟩ c = 0 :=
  bpf_full_band_identity_and_nyq_band (fun _ _ => 1) ⟨0, by norm_num⟩
    (by norm_num) (by norm_num)

/-! ## Claim C3 -/

/-- C3: `co_array(rij)` has exactly `n(n-1)/2` columns; the enumeration
`idxList n` is strictly lexicographically sorted and contains exactly the
pairs `(i, j)` with `i < j < n` (so its `k`-th element is the `k`-th
unordered pair in lexicographic order); and the `k`-th column equals
`rij[:, i_k] - rij[:, j_k]`. -/
theorem co_array_columns {dd n : ℕ} (hn : 2 ≤ n) (rij : Fin dd → Fin n → ℝ)
    (k : ℕ) (hk : k < (idxList n).length) :
    (co_array rij).length = n * (n - 1) / 2 ∧
    (idxList n).Pairwise lexLt ∧
    (∀ p : ℕ × ℕ, p ∈ idxList n ↔ p.1 < p.2 ∧ p.2 < n) ∧
    ∃ (h1 : ((idxList n).get ⟨k, hk⟩).1 < n) (h2 : ((idxList n).get ⟨k, hk⟩).2 < n),
      ∀ r : Fin dd,
        (co_array rij).get ⟨k, by rw [co_array, List.length_map]; exact hk⟩ r =
          rij r ⟨((idxList n).get ⟨k, hk⟩).1, h1⟩ -
            rij r ⟨((idxList n).get ⟨k, hk⟩).2, h2⟩ := by
  have hmem : (idxList n).get ⟨k, hk⟩ ∈ idxList n := by
    rw [List.get_eq_getElem]
    exact List.getElem_mem hk
  have hbounds := (mem_idxList n _).mp hmem
  refine ⟨by rw [co_array, List.length_map, idxList_length],
    idxList_sorted n, mem_idxList n,
    lt_trans hbounds.1 hbounds.2, hbounds.2, fun r => ?_⟩
  have hget : (co_array rij).get ⟨k, by rw [co_array, List.length_map]; exact hk⟩ =
      fun r' =>
        (if h : ((idxList n).get ⟨k, hk⟩).1 < n then
          rij r' ⟨((idxList n).get ⟨k, hk⟩).1, h⟩ else 0) -
        (if h : ((idxList n).get ⟨k, hk⟩).2 < n then
          rij r' ⟨((idxList n).get ⟨k, hk⟩).2, h⟩ else 0) := by
    simp [co_array, List.get_eq_getElem]
  rw [hget]
  show (dite _ _ _) - (dite _ _ _) = _
  rw [dif_pos (lt_trans hbounds.1 hbounds.2), dif_pos hbounds.2]

/-- The spec's `n = 3` example geometry `[[0,1,0],[0,0,1]]` (coordinate
columns `(0,0)`, `(1,0)`, `(0,1)`). -/
def rijEx3 : Fin 2 → Fin 3 → ℝ :=
  fun r c => if (r : ℕ) = 0 then (if (c : ℕ) = 1 then 1 else 0)
    else (if (c : ℕ) = 2 then 1 else 0)

/-- Witness for C3 at the spec's example: 3 columns, and `(0,1)` is an
enumerated pair. -/
theorem co_array_columns_witness :
    (co_array rijEx3).length = 3 ∧ ((0 : ℕ), (1 : ℕ)) ∈ idxList 3 := by
  have h := co_array_columns (by norm_num) rijEx3 0 (by rw [idxList_length]; norm_num)
  refine ⟨?_, (h.2.2.1 ((0 : ℕ), (1 : ℕ))).mpr (by norm_num)⟩
  have h1 := h.1
  norm_num at h1
  exact h1

/-! ## Claim C6 -/

lemma fkNfft_four : fkNfft 4 = 4 := by
  rw [fkNfft, show (4 : ℕ) = 2 ^ 2 from rfl, Nat.clog_pow 2 2 (by norm_num)]

/-- C6: with `fs = 1`, `m = 4` samples (`nfft = 4`, `deltaf = 1/4`) and
`fmin = fmax = 0`, the clamped band is empty (`nlow = 1 > nhigh = 0`,
`nf = 0`), and `fk_freq` raises no `EmptyFrequencyBand` error: the
frequency loop simply never runs and the returned map is `0/0` — NaN at
every grid cell (`none`), produced silently.  (No such exception exists in
the code; for `nf < 0` numpy instead raises a `ValueError` from
`np.empty`.) -/
theorem fk_freq_empty_band_silently_nan :
    fk_freq (fun (_ : Fin 4) (_ : Fin 1) => (1 : ℝ))
      (fun (_ : Fin 2) (_ : Fin 1) => (0 : ℝ)) (fun _ => 1)
      1 0 0 1 1 1 1 0 0 = none := by
  have hnf : fkNfNat 4 1 0 0 = 0 := by
    rw [fkNfNat, fkNf, fkNhigh, fkNlow, fkDeltaf, fkNfft_four]
    norm_num [pyInt]
  rw [fk_freq, if_pos]
  rw [fkPowDen, hnf]
  simp

/-! ## Claim C10 -/

/-- C10 counterexample: on all-zero data (with a frequency band that does
retain one bin) every steered spectral term vanishes, the accumulated
denominator `pow_mapb` is `0`, and the call completes without error with
a power map of NaN entries (`none`), not values in `[0, n]`. -/
theorem fk_freq_zero_data_power_map_nan :
    fk_freq (fun (_ : Fin 4) (_ : Fin 1) => (0 : ℝ))
      (fun (_ : Fin 2) (_ : Fin 1) => (0 : ℝ)) (fun _ => 1)
      4 1 1 1 1 1 1 0 0 = none := by
  rw [fk_freq, if_pos]
  rw [fkPowDen]
  refine Finset.sum_eq_zero fun ii _ => Finset.sum_eq_zero fun s _ => ?_
  have hft : fkFt (fun (_ : Fin 4) (_ : Fin 1) => (0 : ℝ)) (fun _ => 1) s
      (fkNlow 4 4 1 + ii).toNat = 0 := by
    rw [fkFt]
    refine Finset.sum_eq_zero fun j _ => ?_
    rw [fkDataAfter]
    simp
  rw [fkMaster, hft, mul_zero, Complex.normSq_zero]

/-- C10 (amended): whenever the accumulated incoherent reference power
`pow_mapb` at a grid cell is nonzero (in particular whenever some
retained bin carries energy), the returned power-map entry is a real
number in `[0, n]`: per bin `|Top|² ≤ n·Bot` by Cauchy-Schwarz, the bound
survives accumulation over bins, and the final elementwise ratio obeys it. -/
theorem fk_freq_power_map_bounds {m nsta dd : ℕ} (data : Fin m → Fin nsta → ℝ)
    (rij : Fin dd → Fin nsta → ℝ) (taper : Fin m → ℝ) (fs fmin fmax : ℚ)
    (vmin vmax : ℝ) (nvel ntheta : ℕ) (v t : ℕ)
    (hden : fkPowDen data rij taper fs fmin fmax vmin vmax nvel ntheta v t ≠ 0) :
    ∃ val,
      fk_freq data rij taper fs fmin fmax vmin vmax nvel ntheta v t = some val ∧
      0 ≤ val ∧ val ≤ (nsta : ℝ) := by
  have hdnn : 0 ≤ fkPowDen data rij taper fs fmin fmax vmin vmax nvel ntheta v t :=
    Finset.sum_nonneg fun ii _ =>
      Finset.sum_nonneg fun s _ => Complex.normSq_nonneg _
  have hdpos : 0 < fkPowDen data rij taper fs fmin fmax vmin vmax nvel ntheta v t :=
    lt_of_le_of_ne hdnn (Ne.symm hden)
  have hnnum : 0 ≤ fkPowNum data rij taper fs fmin fmax vmin vmax nvel ntheta v t :=
    Finset.sum_nonneg fun ii _ => Complex.normSq_nonneg _
  have hnum_le : fkPowNum data rij taper fs fmin fmax vmin vmax nvel ntheta v t ≤
      (nsta : ℝ) * fkPowDen data rij taper fs fmin fmax vmin vmax nvel ntheta v t := by
    rw [fkPowNum, fkPowDen, Finset.mul_sum]
    refine Finset.sum_le_sum fun ii _ => ?_
    have h1 : Complex.abs (fkTop data rij taper fs fmin fmax vmin vmax nvel ntheta v t ii)
        ≤ ∑ s, Complex.abs
            (fkMaster data rij taper fs fmin fmax vmin vmax nvel ntheta v t ii s) := by
      rw [fkTop]
      exact Complex.abs.sum_le _ _
    have h2 : (∑ s, Complex.abs
          (fkMaster data rij taper fs fmin fmax vmin vmax nvel ntheta v t ii s)) ^ 2 ≤
        ((Finset.univ.card : ℕ) : ℝ) * ∑ s, Complex.abs
          (fkMaster data rij taper fs fmin fmax vmin vmax nvel ntheta v t ii s) ^ 2 :=
      sq_sum_le_card_mul_sum_sq
    rw [Finset.card_univ, Fintype.card_fin] at h2
    calc Complex.normSq (fkTop data rij taper fs fmin fmax vmin vmax nvel ntheta v t ii)
        = Complex.abs (fkTop data rij taper fs fmin fmax vmin vmax nvel ntheta v t ii) ^ 2 :=
          (Complex.sq_abs _).symm
      _ ≤ (∑ s, Complex.abs
            (fkMaster data rij taper fs fmin fmax vmin vmax nvel ntheta v t ii s)) ^ 2 :=
          pow_le_pow_left₀ (AbsoluteValue.nonneg _ _) h1 2
      _ ≤ (nsta : ℝ) * ∑ s, Complex.abs
            (fkMaster data rij taper fs fmin fmax vmin vmax nvel ntheta v t ii s) ^ 2 := h2
      _ = (nsta : ℝ) * ∑ s, Complex.normSq
            (fkMaster data rij taper fs fmin fmax vmin vmax nvel ntheta v t ii s) := by
          congr 1
          exact Finset.sum_congr rfl fun s _ => Complex.sq_abs _
  refine ⟨fkPowNum data rij taper fs fmin fmax vmin vmax nvel ntheta v t /
      fkPowDen data rij taper fs fmin fmax vmin vmax nvel ntheta v t,
    by rw [fk_freq, if_neg hden], div_nonneg hnnum hdnn, ?_⟩
  rw [div_le_iff₀ hdpos]
  linarith [hnum_le]

/-- Concrete data for C10's witness: an impulse on one sensor. -/
def fkWitData : Fin 4 → Fin 1 → ℝ := fun j _ => if j = 0 then 1 else 0

/-- Concrete geometry for C10's witness: the sensor at the origin. -/
def fkWitRij : Fin 2 → Fin 1 → ℝ := fun _ _ => 0

lemma fkWit_nlow : fkNlow 4 4 1 = 1 := by
  rw [fkNlow, fkDeltaf, fkNfft_four]
  norm_num [pyInt]

lemma fkWit_nf : fkNfNat 4 4 1 1 = 1 := by
  rw [fkNfNat, fkNf, fkNhigh, fkNlow, fkDeltaf, fkNfft_four]
  norm_num [pyInt]

lemma fkWit_dataAfter (j : Fin 4) (s : Fin 1) :
    fkDataAfter fkWitData j s = fkWitData j s - 1 / 4 := by
  have hsum : (∑ i, fkWitData i s) = 1 := by
    rw [Fin.sum_univ_four]
    norm_num [fkWitData, Fin.ext_iff, show ((2 : Fin 4) : ℕ) = 2 from rfl,
      show ((3 : Fin 4) : ℕ) = 3 from rfl]
  rw [fkDataAfter, hsum]
  norm_num

lemma fkWit_ft (s : Fin 1) : fkFt fkWitData (fun _ => 1) s 1 = 1 := by
  rw [fkFt]
  simp only [fkNfft_four]
  have hterm : ∀ j : Fin 4,
      ((fkDataAfter fkWitData j s * (1 : ℝ) : ℝ) : ℂ) *
          expUnit 4 (-((j : ℤ) * ((1 : ℕ) : ℤ)))
        = ((fkWitData j s : ℝ) : ℂ) * expUnit 4 (-1 * (j : ℤ))
          - ((1 / 4 : ℝ) : ℂ) * expUnit 4 (-1 * (j : ℤ)) := by
    intro j
    rw [fkWit_dataAfter j s]
    have harg : -((j : ℤ) * ((1 : ℕ) : ℤ)) = -1 * (j : ℤ) := by push_cast; ring
    rw [harg]
    push_cast
    ring
  rw [Finset.sum_congr rfl fun j _ => hterm j, Finset.sum_sub_distrib, ← Finset.mul_sum]
  have hsum0 : ∑ j : Fin 4, expUnit 4 (-1 * (j : ℤ)) = 0 := by
    rw [Fin.sum_univ_eq_sum_range (fun j : ℕ => expUnit 4 (-1 * (j : ℤ)))]
    rw [sum_expUnit (by norm_num) (-1)]
    norm_num
  rw [hsum0, mul_zero, sub_zero, Fin.sum_univ_four]
  norm_num [fkWitData, Fin.ext_iff, show ((2 : Fin 4) : ℕ) = 2 from rfl,
    show ((3 : Fin 4) : ℕ) = 3 from rfl, expUnit_zero]

lemma fkWit_TT (v t : ℕ) (s : Fin 1) : fkTT fkWitRij 1 1 1 1 v t s = 0 := by
  have hrow : ∀ i, fkRow fkWitRij i = fun _ => (0 : ℝ) := by
    intro i
    funext u
    rw [fkRow]
    split <;> rfl
  rw [fkTT, fkEastA, fkNorthA, hrow, hrow]
  norm_num

lemma fkWit_den : fkPowDen fkWitData fkWitRij (fun _ => 1) 4 1 1 1 1 1 1 0 0 = 1 := by
  rw [fkPowDen, fkWit_nf, Finset.sum_range_one, Fin.sum_univ_one, fkMaster,
    fkWit_TT, Complex.ofReal_zero, mul_zero, Complex.exp_zero, fkWit_nlow]
  rw [show ((1 : ℤ) + ((0 : ℕ) : ℤ)).toNat = 1 from rfl]
  rw [fkWit_ft]
  norm_num

/-- Witness for C10's amended theorem: impulse data, one sensor at the
origin, band retaining exactly FFT bin 1. -/
theorem fk_freq_power_map_bounds_witness :
    ∃ val,
      fk_freq fkWitData fkWitRij (fun _ => 1) 4 1 1 1 1 1 1 0 0 = some val ∧
      0 ≤ val ∧ val ≤ ((1 : ℕ) : ℝ) :=
  fk_freq_power_map_bounds fkWitData fkWitRij (fun _ => 1) 4 1 1 1 1 1 1 0 0
    (by rw [fkWit_den]; norm_num)

end
